import Mathlib

/-!
Verification of the two utility scripts in this repository:

* `bin/regex-escape.py` — reads lines from stdin, regex-escapes each line
  (after stripping trailing whitespace) and additionally escapes `/`.
* `config/zed/diff-settings.py` — compares a merged `settings.json` against
  two JSONC sources (`settings.base.jsonc`, `settings.local.jsonc`) and
  reports "orphaned" content.

The embedding models JSON documents as an inductive type whose numbers are
arbitrary-precision integers (fractional / exponential numerals, `NaN` and
`Infinity` are outside the model and rejected by the parser).  Python
dictionaries are association lists in insertion order; dictionaries built by
the JSON parser always have distinct keys.  Fallible Python code (code that
can raise) is modelled with `Option`, `none` standing for an uncaught
exception.
-/

/-- A JSON value.  Mirrors the untyped documents handled by
`diff-settings.py`: scalars, ordered sequences (Python lists) and mappings
(Python dicts, kept in insertion order). -/
inductive Json where
  | null
  | bool (b : Bool)
  | num (n : Int)
  | str (s : String)
  | arr (elems : List Json)
  | obj (entries : List (String × Json))

/-- The empty mapping `{}`. -/
def jEmptyObj : Json := Json.obj []

/-- The empty sequence `[]`. -/
def jEmptyArr : Json := Json.arr []

/-- First value stored under key `k` in an association list
(Python dicts built by the parser have unique keys, so "first" is "the"). -/
def dLookup (kvs : List (String × Json)) (k : String) : Option Json :=
  (kvs.find? (fun p => p.1 == k)).map Prod.snd

/-- `isinstance(j, dict)`. -/
def isDictJ : Json → Bool
  | .obj _ => true
  | _ => false

/-- `isinstance(j, list)`. -/
def isListJ : Json → Bool
  | .arr _ => true
  | _ => false

/-- `key in j` for a dict `j`, and `False` for any non-dict (the script always
guards the membership test with `isinstance(j, dict)`). -/
def jHasKey : Json → String → Bool
  | .obj kvs, k => kvs.any (fun p => p.1 == k)
  | _, _ => false

/-- `j.get(k, d) if isinstance(j, dict) else d`. -/
def jGetD : Json → String → Json → Json
  | .obj kvs, k, d => (dLookup kvs k).getD d
  | _, _, d => d

/-- `p.isPrefixOf l` for some suffix of `l`: Python's substring test
`p in l` on strings, over the underlying character lists. -/
def pySubstr (p : List Char) : List Char → Bool
  | [] => p.isEmpty
  | c :: t => p.isPrefixOf (c :: t) || pySubstr p t

mutual

/-- Python `==` on JSON data, with the numeric coercion `True == 1`,
`False == 0`.  Sequences compare elementwise; mappings compare as Python
dicts do, with no regard to entry order: equal sizes, and for every key of
the first mapping an equal value at that key in the second. -/
def pyEq : Json → Json → Bool
  | .null, .null => true
  | .bool a, .bool b => a == b
  | .num a, .num b => a == b
  | .bool a, .num n => (if a then (1 : Int) else 0) == n
  | .num n, .bool b => n == (if b then (1 : Int) else 0)
  | .str a, .str b => a == b
  | .arr xs, .arr ys => pyEqList xs ys
  | .obj xs, .obj ys => xs.length == ys.length && pyEqEntriesIn xs ys
  | _, _ => false
termination_by a b => sizeOf a + sizeOf b

/-- Elementwise Python `==` on sequences. -/
def pyEqList : List Json → List Json → Bool
  | u :: moreU, w :: moreW => pyEq u w && pyEqList moreU moreW
  | [], [] => true
  | _, _ => false
termination_by xs ys => sizeOf xs + sizeOf ys

/-- The loop of Python's dict comparison: every entry of the first mapping
is matched by an equal value at its key in the second. -/
def pyEqEntriesIn : List (String × Json) → List (String × Json) → Bool
  | [], _ => true
  | (k, v) :: more, ys => pyEqValAt k v ys && pyEqEntriesIn more ys
termination_by xs ys => sizeOf xs + sizeOf ys

/-- `ys[k] == v`: the value at the first entry for `k` (parsed dicts hold
each key once) compares equal to `v`; a missing key makes the dicts
unequal. -/
def pyEqValAt (k : String) (v : Json) : List (String × Json) → Bool
  | [] => false
  | (k2, w) :: more => if k2 == k then pyEq v w else pyEqValAt k v more
termination_by ys => sizeOf v + sizeOf ys

end

/-- Python `e in container`.  `none` models a `TypeError`: membership in a
scalar is an error, and unhashable values (lists, dicts) cannot be looked up
in a dict; membership in a string is substring search and requires a string
operand.  Keys of parsed dicts are strings, so no non-string hashable scalar
is ever a dict member. -/
def pyIn (e : Json) (container : Json) : Option Bool :=
  match container with
  | .arr ys => some (ys.any (fun y => pyEq e y))
  | .str s =>
    match e with
    | .str t => some (pySubstr t.data s.data)
    | _ => none
  | .obj kvs =>
    match e with
    | .str t => some (kvs.any (fun p => p.1 == t))
    | .arr _ => none
    | .obj _ => none
    | _ => some false
  | _ => none

/-- `[elem for elem in value if elem not in expected]`; `none` when one of
the membership tests raises. -/
def filterNotIn : List Json → Json → Option (List Json)
  | [], _ => some []
  | e :: es, expected =>
    match pyIn e expected, filterNotIn es expected with
    | some b, some rest => some (if b then rest else e :: rest)
    | _, _ => none

mutual

/-- `find_orphaned(settings, base, local_settings)` from
`config/zed/diff-settings.py`.  Returns the orphaned mapping (an association
list in `settings`'s key order), or `none` when the Python code would raise. -/
def findOrphaned : Json → Json → Json → Option (List (String × Json))
  | .obj kvs, base, localSettings => findOrphanedList kvs base localSettings
  | _, _, _ => some []

/-- The `for key, value in settings.items()` loop of `find_orphaned`. -/
def findOrphanedList : List (String × Json) → Json → Json → Option (List (String × Json))
  | [], _, _ => some []
  | (k, v) :: rest, base, localSettings =>
    match processEntry k v base localSettings, findOrphanedList rest base localSettings with
    | some h, some t => some (h ++ t)
    | _, _ => none

/-- One iteration of the loop body of `find_orphaned`: the contribution of a
single `settings` entry to the orphaned mapping (`in_base`, `in_local` and
`expected` from the Python code appear inlined). -/
def processEntry (k : String) (v : Json) (base localSettings : Json) :
    Option (List (String × Json)) :=
  if !jHasKey base k && !jHasKey localSettings k then
    some [(k, v)]
  else
    match v with
    | .obj sub =>
      match findOrphaned (.obj sub) (jGetD base k jEmptyObj) (jGetD localSettings k jEmptyObj) with
      | some nested => some (if nested.isEmpty then [] else [(k, .obj nested)])
      | none => none
    | .arr xs =>
      match filterNotIn xs
          (if jHasKey localSettings k then jGetD localSettings k jEmptyArr
           else jGetD base k jEmptyArr) with
      | some orph => some (if orph.isEmpty then [] else [(k, .arr orph)])
      | none => none
    | _ => some []

end

/-! ## The Escaper (`bin/regex-escape.py`) -/

/-- The ASCII whitespace characters stripped by Python's `str.rstrip()` and
matched by `\s` in a regex (the model restricts text to characters where the
two notions agree; non-ASCII whitespace is outside the model). -/
def pyIsSpace (c : Char) : Bool :=
  c = ' ' || c = '\t' || c = '\n' || c = '\r' || c = '\x0b' || c = '\x0c'

/-- Python `line.rstrip()`: drop trailing whitespace. -/
def pyRstrip (l : List Char) : List Char :=
  (l.reverse.dropWhile pyIsSpace).reverse

/-- The characters escaped by Python's `re.escape`
(its `_special_chars_map`). -/
def reSpecials : List Char :=
  ['(', ')', '[', ']', '\x7b', '\x7d', '?', '*', '+', '-', '|', '^', '$', '\\',
   '.', '&', '~', '#', ' ', '\t', '\n', '\r', '\x0b', '\x0c']

/-- `re.escape` on one character. -/
def reEscapeChar (c : Char) : List Char :=
  if c ∈ reSpecials then ['\\', c] else [c]

/-- Python `re.escape(l)`. -/
def reEscape (l : List Char) : List Char :=
  l.flatMap reEscapeChar

/-- `escaped.replace("/", "\\/")` on one character. -/
def slashRepChar (c : Char) : List Char :=
  if c = '/' then ['\\', '/'] else [c]

/-- Python `escaped.replace("/", "\\/")` (a one-character pattern, so the
replacement is per character). -/
def pyReplaceSlash (l : List Char) : List Char :=
  l.flatMap slashRepChar

/-- The whole per-line transformation of `bin/regex-escape.py`:
`re.escape(line.rstrip()).replace("/", "\\/")`. -/
def escLine (l : List Char) : List Char :=
  pyReplaceSlash (reEscape (pyRstrip l))

/-! ### A model of the regex dialect

To state that an escaped line, used as a pattern, matches exactly the
original literal text, we model the fragment of the standard regex dialect
needed to interpret escaper outputs — and enough metacharacter behaviour
(`.`, `*`, `+`, `?`, backslash escapes) that the statement has content.
Patterns outside the fragment (unescaped grouping, classes, alternation,
anchors, repeats, escapes of word characters) do not compile (`none`). -/

/-- A single-character matcher: a literal character, or `.`
(any character but newline). -/
inductive RAtom where
  | lit (c : Char)
  | dot

/-- A quantifier applied to an atom. -/
inductive RQuant where
  | one
  | star
  | plus
  | opt

/-- Characters with a special meaning at atom position in a pattern. -/
def regexMeta : List Char :=
  ['\\', '.', '*', '+', '?', '(', ')', '[', ']', '\x7b', '\x7d', '|', '^', '$']

/-- `\w` characters: an escape like `\d` is a character class (or an error),
not a literal, so the compiler rejects it. -/
def isWordChar (c : Char) : Bool :=
  c.isAlphanum || c = '_'

mutual

/-- Compile a pattern string into a sequence of quantified atoms.
`none` for patterns outside the modelled fragment. -/
def compilePat : List Char → Option (List (RAtom × RQuant))
  | [] => some []
  | '\\' :: c :: r => if isWordChar c then none else withQuant (RAtom.lit c) r
  | c :: r =>
    if c = '\\' then none
    else if c = '.' then withQuant RAtom.dot r
    else if c ∈ regexMeta then none
    else withQuant (RAtom.lit c) r
termination_by l => (l.length, 0)

/-- After an atom, read an optional quantifier and continue compiling. -/
def withQuant (a : RAtom) : List Char → Option (List (RAtom × RQuant))
  | [] => some [(a, RQuant.one)]
  | c :: r =>
    if c = '*' then (compilePat r).map (fun ps => (a, RQuant.star) :: ps)
    else if c = '+' then (compilePat r).map (fun ps => (a, RQuant.plus) :: ps)
    else if c = '?' then (compilePat r).map (fun ps => (a, RQuant.opt) :: ps)
    else (compilePat (c :: r)).map (fun ps => (a, RQuant.one) :: ps)
termination_by l => (l.length, 1)

end

/-- The atom `a` matches the character `c`. -/
def AtomM : RAtom → Char → Prop
  | .lit c', c => c' = c
  | .dot, c => c ≠ '\n'

/-- The compiled pattern matches the whole character list
(standard semantics of concatenation and of the `*`, `+`, `?`
quantifiers over single-character atoms). -/
inductive MatchP : List (RAtom × RQuant) → List Char → Prop where
  | nil : MatchP [] []
  | one {a ps c s} : AtomM a c → MatchP ps s → MatchP ((a, RQuant.one) :: ps) (c :: s)
  | star0 {a ps s} : MatchP ps s → MatchP ((a, RQuant.star) :: ps) s
  | starS {a ps c s} : AtomM a c → MatchP ((a, RQuant.star) :: ps) s →
      MatchP ((a, RQuant.star) :: ps) (c :: s)
  | plus {a ps c s} : AtomM a c → MatchP ((a, RQuant.star) :: ps) s →
      MatchP ((a, RQuant.plus) :: ps) (c :: s)
  | opt0 {a ps s} : MatchP ps s → MatchP ((a, RQuant.opt) :: ps) s
  | opt1 {a ps c s} : AtomM a c → MatchP ps s → MatchP ((a, RQuant.opt) :: ps) (c :: s)

/-- The string `pat`, used as a regex pattern, matches the text `s` in full:
it compiles in the modelled fragment and the compiled pattern matches `s`. -/
def PatMatches (pat s : List Char) : Prop :=
  ∃ ps, compilePat pat = some ps ∧ MatchP ps s

/-- The input line has no trailing newline (the hypothesis of spec
property 1). -/
def NoTrailingNewline (l : List Char) : Prop :=
  l.getLast? ≠ some '\n'

/-! ## SettingsDiff: JSONC loading (`parse_jsonc`) -/

/-- `re.sub(r"//[^\n]*", "", text)` as a left-to-right scan.  The flag says
whether the scan is inside a comment (dropping characters up to, but not
including, the next newline).  A comment starts at the leftmost `//`, string
literals notwithstanding, and `[^\n]*` is greedy — exactly the scan below. -/
def scGo : Bool → List Char → List Char
  | _, [] => []
  | true, '\n' :: r => '\n' :: scGo false r
  | true, _ :: r => scGo true r
  | false, '/' :: '/' :: r => scGo true r
  | false, c :: r => c :: scGo false r

/-- Strip `//` line comments from JSONC text. -/
def stripComments (l : List Char) : List Char :=
  scGo false l

/-- `re.sub(r",(\s*[}\]])", r"\1", text)` as a left-to-right scan.  The first
argument is `none` outside a candidate match, and `some ws` (whitespace read
so far, reversed) after a `,` while looking for a closing `}` or `]`.  On a
failed candidate the scan resumes right after the comma — the skipped
whitespace cannot start a match, and the failing character is reconsidered. -/
def stcGo : Option (List Char) → List Char → List Char
  | none, [] => []
  | none, c :: r => if c = ',' then stcGo (some []) r else c :: stcGo none r
  | some ws, [] => ',' :: ws.reverse
  | some ws, c :: r =>
    if c = '\x7d' || c = ']' then ws.reverse ++ c :: stcGo none r
    else if pyIsSpace c then stcGo (some (c :: ws)) r
    else if c = ',' then (',' :: ws.reverse) ++ stcGo (some []) r
    else (',' :: ws.reverse) ++ c :: stcGo none r

/-- Remove each comma that immediately (up to whitespace) precedes a closing
`}` or `]`. -/
def stripTrailingCommas (l : List Char) : List Char :=
  stcGo none l

/-! ### Strict JSON parsing (`json.loads`)

A fuel-indexed recursive-descent parser for strict JSON.  Model
restrictions: numbers must be integer literals (fractions, exponents, `NaN`
and `Infinity` are rejected), and `\uXXXX` escapes must denote a scalar
value or a well-formed surrogate pair. -/

/-- The insignificant whitespace of the JSON grammar. -/
def jsonWs (c : Char) : Bool :=
  c = ' ' || c = '\t' || c = '\n' || c = '\r'

/-- Skip insignificant whitespace. -/
def skipWs : List Char → List Char
  | [] => []
  | c :: r => if jsonWs c then skipWs r else c :: r

/-- The value of a hex digit (decimal digits are code points 48-57, `a`-`f`
are 97-102, `A`-`F` are 65-70). -/
def hexVal (c : Char) : Option Nat :=
  let n := c.toNat
  if 47 < n && n < 58 then some (n - 48)
  else if 96 < n && n < 103 then some (n - 87)
  else if 64 < n && n < 71 then some (n - 55)
  else none

/-- Four hex digits. -/
def hex4 : List Char → Option (Nat × List Char)
  | c1 :: c2 :: c3 :: c4 :: r =>
    match hexVal c1, hexVal c2, hexVal c3, hexVal c4 with
    | some h1, some h2, some h3, some h4 => some (((h1 * 16 + h2) * 16 + h3) * 16 + h4, r)
    | _, _, _, _ => none
  | _ => none

/-- Parse the body of a string literal, the opening quote already consumed;
returns the decoded characters and the input after the closing quote. -/
def parseStrBody : List Char → Option (List Char × List Char)
  | [] => none
  | '"' :: r => some ([], r)
  | '\\' :: 'u' :: c1 :: c2 :: c3 :: c4 :: '\\' :: 'u' :: d1 :: d2 :: d3 :: d4 :: r =>
    match hex4 [c1, c2, c3, c4] with
    | none => none
    | some (n, _) =>
      if n < 0xd800 || 0xdfff < n then
        (parseStrBody ('\\' :: 'u' :: d1 :: d2 :: d3 :: d4 :: r)).map
          (fun p => (Char.ofNat n :: p.1, p.2))
      else if n ≤ 0xdbff then
        match hex4 [d1, d2, d3, d4] with
        | none => none
        | some (m, _) =>
          if 0xdc00 ≤ m && m ≤ 0xdfff then
            (parseStrBody r).map
              (fun p => (Char.ofNat (0x10000 + (n - 0xd800) * 0x400 + (m - 0xdc00)) :: p.1, p.2))
          else none
      else none
  | '\\' :: 'u' :: c1 :: c2 :: c3 :: c4 :: r =>
    match hex4 [c1, c2, c3, c4] with
    | none => none
    | some (n, _) =>
      if n < 0xd800 || 0xdfff < n then
        (parseStrBody r).map (fun p => (Char.ofNat n :: p.1, p.2))
      else none
  | '\\' :: e :: r =>
    match
      (if e = '"' then some '"'
       else if e = '\\' then some '\\'
       else if e = '/' then some '/'
       else if e = 'b' then some '\x08'
       else if e = 'f' then some '\x0c'
       else if e = 'n' then some '\n'
       else if e = 'r' then some '\r'
       else if e = 't' then some '\t'
       else none) with
    | some d => (parseStrBody r).map (fun p => (d :: p.1, p.2))
    | none => none
  | c :: r =>
    if c.toNat < 0x20 then none
    else (parseStrBody r).map (fun p => (c :: p.1, p.2))

/-- Parse a strict-JSON integer literal (leading `-` allowed, no leading
zeros); fractional or exponential continuations are outside the model. -/
def parseNum (l : List Char) : Option (Int × List Char) :=
  let s : Bool × List Char :=
    if l.head? = some '-' then (true, l.tail) else (false, l)
  let ds := s.2.takeWhile Char.isDigit
  let rest := s.2.dropWhile Char.isDigit
  if ds.isEmpty then none
  else if 1 < ds.length && ds.head? = some '0' then none
  else
    match rest with
    | c :: _ =>
      if c = '.' || c = 'e' || c = 'E' then none
      else some (condNeg s.1 (digitsToNat ds), rest)
    | [] => some (condNeg s.1 (digitsToNat ds), rest)
where
  digitsToNat (ds : List Char) : Nat := ds.foldl (fun acc d => 10 * acc + (d.toNat - 48)) 0
  condNeg (b : Bool) (n : Nat) : Int := if b then -(n : Int) else n

/-- `dict[key] = value` on an insertion-ordered association list: replace the
value at an existing key, else append. -/
def dictInsert (kvs : List (String × Json)) (k : String) (v : Json) :
    List (String × Json) :=
  if kvs.any (fun p => p.1 == k) then kvs.map (fun p => if p.1 == k then (p.1, v) else p)
  else kvs ++ [(k, v)]

mutual

/-- Parse one JSON value (leading whitespace allowed); returns it and the
rest of the input.  The fuel only bounds recursion depth; `jsonLoads` always
supplies enough. -/
def parseValue : Nat → List Char → Option (Json × List Char)
  | 0, _ => none
  | fuel + 1, l =>
    match skipWs l with
    | [] => none
    | c :: r =>
      if c = '\x7b' then
        match skipWs r with
        | '\x7d' :: r1 => some (Json.obj [], r1)
        | r1 => parseMembers fuel r1 []
      else if c = '[' then
        match skipWs r with
        | ']' :: r1 => some (Json.arr [], r1)
        | r1 => parseElems fuel r1 []
      else if c = '"' then
        (parseStrBody r).map (fun p => (Json.str p.1.asString, p.2))
      else if c = 't' then
        match r with
        | 'r' :: 'u' :: 'e' :: r1 => some (Json.bool true, r1)
        | _ => none
      else if c = 'f' then
        match r with
        | 'a' :: 'l' :: 's' :: 'e' :: r1 => some (Json.bool false, r1)
        | _ => none
      else if c = 'n' then
        match r with
        | 'u' :: 'l' :: 'l' :: r1 => some (Json.null, r1)
        | _ => none
      else if c = '-' || c.isDigit then
        (parseNum (c :: r)).map (fun p => (Json.num p.1, p.2))
      else none

/-- Parse the members of an object after its `{` (first member expected). -/
def parseMembers : Nat → List Char → List (String × Json) → Option (Json × List Char)
  | 0, _, _ => none
  | fuel + 1, l, acc =>
    match skipWs l with
    | '"' :: r =>
      match parseStrBody r with
      | none => none
      | some (kcs, r1) =>
        match skipWs r1 with
        | ':' :: r2 =>
          match parseValue fuel r2 with
          | none => none
          | some (v, after) =>
            match skipWs after with
            | ',' :: more => parseMembers fuel more (dictInsert acc kcs.asString v)
            | '\x7d' :: more => some (Json.obj (dictInsert acc kcs.asString v), more)
            | _ => none
        | _ => none
    | _ => none

/-- Parse the elements of an array after its `[` (first element expected). -/
def parseElems : Nat → List Char → List Json → Option (Json × List Char)
  | 0, _, _ => none
  | fuel + 1, l, acc =>
    match parseValue fuel l with
    | none => none
    | some (v, r) =>
      match skipWs r with
      | ',' :: r1 => parseElems fuel r1 (acc ++ [v])
      | ']' :: r1 => some (Json.arr (acc ++ [v]), r1)
      | _ => none

end

/-- `json.loads(text)`: parse one value, then only whitespace may remain. -/
def jsonLoads (l : List Char) : Option Json :=
  match parseValue (l.length + 1) l with
  | some (v, rest) => if (skipWs rest).isEmpty then some v else none
  | none => none

/-- `parse_jsonc(path)` from `config/zed/diff-settings.py`.  The argument is
the file's contents, or `none` when the file does not exist (in which case
the result is the empty mapping, without error).  Otherwise: strip `//` line
comments, remove trailing commas before `}` / `]`, then parse as strict
JSON; `none` models the uncaught parse error. -/
def parse_jsonc (file : Option String) : Option Json :=
  match file with
  | none => some jEmptyObj
  | some text => jsonLoads (stripTrailingCommas (stripComments text.data))

/-! ## SettingsDiff: output (`json.dumps(..., indent=2)`) and `main` -/

/-- Lowercase hex, four digits. -/
def toHex4 (n : Nat) : List Char :=
  let dig := fun m => Char.ofNat (if m < 10 then '0'.toNat + m else 'a'.toNat + m - 10)
  [dig (n / 4096 % 16), dig (n / 256 % 16), dig (n / 16 % 16), dig (n % 16)]

/-- `json.dumps` escaping of one string character (`ensure_ascii=True`):
named escapes, printable ASCII verbatim, everything else `\uXXXX` (a
surrogate pair beyond the BMP). -/
def dumpsChar (c : Char) : List Char :=
  if c = '"' then ['\\', '"']
  else if c = '\\' then ['\\', '\\']
  else if c = '\n' then ['\\', 'n']
  else if c = '\r' then ['\\', 'r']
  else if c = '\t' then ['\\', 't']
  else if c = '\x08' then ['\\', 'b']
  else if c = '\x0c' then ['\\', 'f']
  else if 0x20 ≤ c.toNat && c.toNat < 0x7f then [c]
  else if c.toNat < 0x10000 then '\\' :: 'u' :: toHex4 c.toNat
  else
    ('\\' :: 'u' :: toHex4 (0xd800 + (c.toNat - 0x10000) / 0x400)) ++
    ('\\' :: 'u' :: toHex4 (0xdc00 + (c.toNat - 0x10000) % 0x400))

/-- A `json.dumps` string literal. -/
def dumpsStr (s : String) : String :=
  "\"" ++ (s.data.flatMap dumpsChar).asString ++ "\""

/-- `indent=2` padding at nesting level `lvl`. -/
def dumpsInd (lvl : Nat) : String :=
  (List.replicate (2 * lvl) ' ').asString

mutual

/-- `json.dumps(v, indent=2)`, at nesting level `lvl`. -/
def dumpsVal : Json → Nat → String
  | .null, _ => "null"
  | .bool true, _ => "true"
  | .bool false, _ => "false"
  | .num n, _ => toString n
  | .str s, _ => dumpsStr s
  | .arr [], _ => "[]"
  | .arr (x :: xs), lvl =>
    "[\n" ++ dumpsInd (lvl + 1) ++ dumpsVal x (lvl + 1) ++ dumpsElems xs (lvl + 1) ++
      "\n" ++ dumpsInd lvl ++ "]"
  | .obj [], _ => "\x7b\x7d"
  | .obj (p :: ps), lvl =>
    "\x7b\n" ++ dumpsInd (lvl + 1) ++ dumpsStr p.1 ++ ": " ++ dumpsVal p.2 (lvl + 1) ++
      dumpsEntries ps (lvl + 1) ++ "\n" ++ dumpsInd lvl ++ "\x7d"

/-- The remaining elements of an array, each preceded by `,\n` + padding. -/
def dumpsElems : List Json → Nat → String
  | [], _ => ""
  | x :: xs, lvl => ",\n" ++ dumpsInd lvl ++ dumpsVal x lvl ++ dumpsElems xs lvl

/-- The remaining entries of an object, each preceded by `,\n` + padding. -/
def dumpsEntries : List (String × Json) → Nat → String
  | [], _ => ""
  | p :: ps, lvl =>
    ",\n" ++ dumpsInd lvl ++ dumpsStr p.1 ++ ": " ++ dumpsVal p.2 lvl ++ dumpsEntries ps lvl

end

/-- `json.dumps(j, indent=2)`. -/
def jsonDumps (j : Json) : String :=
  dumpsVal j 0

/-- The observable outcome of one run of the script: exit code and the lines
printed to standard output and standard error. -/
structure ProcResult where
  exitCode : Nat
  stdout : List String
  stderr : List String
deriving DecidableEq

/-- The diagnostic printed when `settings.json` is missing
(`f"Error: {settings_path} not found"`, the path being
`script_dir / "settings.json"`). -/
def errMsg (scriptDir : String) : String :=
  "Error: " ++ scriptDir ++ "/settings.json not found"

/-- The first line of the interpreter's diagnostic for an uncaught
exception; such a run exits with status 1 and prints nothing to stdout. -/
def tracebackMsg : String :=
  "Traceback (most recent call last):"

/-- `main()` of `config/zed/diff-settings.py` over an abstract file system:
each argument is the contents of the respective fixed-location file, or
`none` when it does not exist.  Mirrors the script's order of operations:
required-file check, then `parse_jsonc` of base, local and settings, then
`find_orphaned`, then print.  Uncaught exceptions (parse errors, a
`TypeError` inside `find_orphaned`) exit 1 with a traceback on stderr. -/
def mainRun (scriptDir : String) (settingsFile baseFile localFile : Option String) :
    ProcResult :=
  match settingsFile with
  | none => ⟨1, [], [errMsg scriptDir]⟩
  | some _ =>
    match parse_jsonc baseFile with
    | none => ⟨1, [], [tracebackMsg]⟩
    | some base =>
      match parse_jsonc localFile with
      | none => ⟨1, [], [tracebackMsg]⟩
      | some localSettings =>
        match parse_jsonc settingsFile with
        | none => ⟨1, [], [tracebackMsg]⟩
        | some settings =>
          match findOrphaned settings base localSettings with
          | none => ⟨1, [], [tracebackMsg]⟩
          | some orphaned =>
            if orphaned.isEmpty then ⟨0, ["No orphaned settings found."], []⟩
            else ⟨0, [jsonDumps (Json.obj orphaned)], []⟩

/-! ## Helper lemmas about `find_orphaned` -/

theorem dLookup_cons (k' : String) (v' : Json) (t : List (String × Json)) (k : String) :
    dLookup ((k', v') :: t) k = if k' = k then some v' else dLookup t k := by
  by_cases h : k' = k
  · subst h
    simp [dLookup, List.find?]
  · have hb : (k' == k) = false := by simp [h]
    simp [dLookup, List.find?, hb, h]

theorem dLookup_append_of_ne (a b : List (String × Json)) (k : String)
    (ha : ∀ p ∈ a, p.1 ≠ k) : dLookup (a ++ b) k = dLookup b k := by
  induction a with
  | nil => rfl
  | cons p t ih =>
    obtain ⟨k', v'⟩ := p
    rw [List.cons_append, dLookup_cons]
    have hk : k' ≠ k := ha (k', v') (List.mem_cons_self _ _)
    simp only [hk, if_false]
    exact ih fun q hq => ha q (List.mem_cons_of_mem _ hq)

theorem findOrphanedList_cons_some {k : String} {v : Json}
    {rest : List (String × Json)} {b l : Json} {res : List (String × Json)}
    (h : findOrphanedList ((k, v) :: rest) b l = some res) :
    ∃ hd tl, processEntry k v b l = some hd ∧ findOrphanedList rest b l = some tl ∧
      res = hd ++ tl := by
  rw [findOrphanedList] at h
  cases hpe : processEntry k v b l with
  | none => rw [hpe] at h; exact absurd h (by simp)
  | some hd =>
    cases htl : findOrphanedList rest b l with
    | none => rw [hpe, htl] at h; exact absurd h (by simp)
    | some tl =>
      rw [hpe, htl] at h
      exact ⟨hd, tl, rfl, rfl, (Option.some_injective _ h).symm⟩

theorem processEntry_orphan {k : String} {v : Json} {b l : Json}
    (hb : jHasKey b k = false) (hl : jHasKey l k = false) :
    processEntry k v b l = some [(k, v)] := by
  rw [processEntry.eq_def, hb, hl]
  rfl

theorem processEntry_keys {k : String} {v : Json} {b l : Json}
    {hd : List (String × Json)} (h : processEntry k v b l = some hd) :
    ∀ p ∈ hd, p.1 = k := by
  rw [processEntry.eq_def] at h
  split at h
  · obtain rfl : [(k, v)] = hd := Option.some_injective _ h
    intro p hp
    rw [List.mem_singleton] at hp
    rw [hp]
  · split at h
    · split at h
      · obtain rfl := Option.some_injective _ h
        intro p hp
        split at hp
        · exact absurd hp (List.not_mem_nil p)
        · rw [List.mem_singleton] at hp; rw [hp]
      · exact absurd h (by simp)
    · split at h
      · obtain rfl := Option.some_injective _ h
        intro p hp
        split at hp
        · exact absurd hp (List.not_mem_nil p)
        · rw [List.mem_singleton] at hp; rw [hp]
      · exact absurd h (by simp)
    · obtain rfl : [] = hd := Option.some_injective _ h
      intro p hp
      exact absurd hp (List.not_mem_nil p)

/-! ## C1 -/

/-- C1: for every merged settings mapping and every key in it, if the key is
present (by key identity) in neither the base mapping nor the local mapping,
then `find_orphaned` includes that key in its result, mapped to the entire
value it has in `settings`. -/
theorem c1_unexplained_key_fully_orphaned
    (kvs : List (String × Json)) (b l : Json) (k : String) (v : Json)
    (res : List (String × Json))
    (hb : jHasKey b k = false) (hl : jHasKey l k = false)
    (hv : dLookup kvs k = some v)
    (hres : findOrphaned (Json.obj kvs) b l = some res) :
    dLookup res k = some v := by
  rw [findOrphaned] at hres
  induction kvs generalizing res with
  | nil => simp [dLookup] at hv
  | cons p rest ih =>
    obtain ⟨k', v'⟩ := p
    obtain ⟨hd, tl, hpe, htl, rfl⟩ := findOrphanedList_cons_some hres
    rw [dLookup_cons] at hv
    by_cases hk : k' = k
    · subst hk
      rw [if_pos rfl] at hv
      obtain rfl := Option.some_injective _ hv
      rw [processEntry_orphan hb hl] at hpe
      obtain rfl := Option.some_injective _ hpe
      rw [List.cons_append, dLookup_cons, if_pos rfl]
    · rw [if_neg hk] at hv
      have hkeys := processEntry_keys hpe
      rw [dLookup_append_of_ne hd tl k (fun q hq => by rw [hkeys q hq]; exact hk)]
      exact ih tl hv htl

/-- Witness for C1 at the spec's example: for `settings = {"x": 5}`,
`base = {}`, `local = {}` the orphan report is `{"x": 5}`, and the theorem
applies to the key `"x"`. -/
theorem c1_unexplained_key_fully_orphaned_witness :
    findOrphaned (Json.obj [("x", Json.num 5)]) jEmptyObj jEmptyObj =
      some [("x", Json.num 5)] ∧
    dLookup [("x", Json.num 5)] "x" = some (Json.num 5) :=
  ⟨by simp [findOrphaned, findOrphanedList, processEntry, jHasKey, jEmptyObj],
   c1_unexplained_key_fully_orphaned [("x", Json.num 5)] jEmptyObj jEmptyObj "x"
     (Json.num 5) [("x", Json.num 5)] rfl rfl rfl
     (by simp [findOrphaned, findOrphanedList, processEntry, jHasKey, jEmptyObj])⟩

/-! ## C10 -/

theorem findOrphaned_non_dict {s : Json} (hs : isDictJ s = false) (b l : Json) :
    findOrphaned s b l = some [] := by
  cases s with
  | obj kvs => simp [isDictJ] at hs
  | null => simp [findOrphaned]
  | bool x => simp [findOrphaned]
  | num x => simp [findOrphaned]
  | str x => simp [findOrphaned]
  | arr xs => simp [findOrphaned]

/-- C10: `find_orphaned` is total off the documented domain: for a settings
argument that is not a mapping it returns the empty mapping without raising,
whatever the base and local arguments are. -/
theorem c10_non_dict_settings_empty (s b l : Json) (hs : isDictJ s = false) :
    findOrphaned s b l = some [] :=
  findOrphaned_non_dict hs b l

/-- Witness for C10: a scalar settings argument with a mapping base and a
sequence local argument. -/
theorem c10_non_dict_settings_empty_witness :
    isDictJ (Json.num 3) = false ∧
    findOrphaned (Json.num 3) (Json.obj [("a", Json.null)]) (Json.arr [Json.bool true]) =
      some [] :=
  ⟨rfl, c10_non_dict_settings_empty (Json.num 3) (Json.obj [("a", Json.null)])
    (Json.arr [Json.bool true]) rfl⟩

/-! ## Lemmas: a non-mapping base or local behaves as the empty mapping -/

theorem jHasKey_non_dict {b : Json} (hb : isDictJ b = false) (k : String) :
    jHasKey b k = false := by
  cases b <;> first | rfl | simp [isDictJ] at hb

theorem jGetD_non_dict {b : Json} (hb : isDictJ b = false) (k : String) (d : Json) :
    jGetD b k d = d := by
  cases b <;> first | rfl | simp [isDictJ] at hb

/-- The sub-document actually recursed on: the value itself when it is a
mapping, the empty mapping otherwise. -/
def dictNorm (j : Json) : Json :=
  if isDictJ j then j else jEmptyObj

theorem processEntry_non_dict_base {b : Json} (hb : isDictJ b = false)
    (k : String) (v : Json) (l : Json) :
    processEntry k v b l = processEntry k v jEmptyObj l := by
  rw [processEntry.eq_def, processEntry.eq_def]
  simp only [jHasKey_non_dict hb, jGetD_non_dict hb]
  rfl

theorem processEntry_non_dict_local {l : Json} (hl : isDictJ l = false)
    (k : String) (v : Json) (b : Json) :
    processEntry k v b l = processEntry k v b jEmptyObj := by
  rw [processEntry.eq_def, processEntry.eq_def]
  simp only [jHasKey_non_dict hl, jGetD_non_dict hl]
  rfl

theorem findOrphanedList_non_dict_base {b : Json} (hb : isDictJ b = false)
    (kvs : List (String × Json)) (l : Json) :
    findOrphanedList kvs b l = findOrphanedList kvs jEmptyObj l := by
  induction kvs with
  | nil => rw [findOrphanedList, findOrphanedList]
  | cons p rest ih =>
    obtain ⟨k, v⟩ := p
    rw [findOrphanedList, findOrphanedList, processEntry_non_dict_base hb, ih]

theorem findOrphanedList_non_dict_local {l : Json} (hl : isDictJ l = false)
    (kvs : List (String × Json)) (b : Json) :
    findOrphanedList kvs b l = findOrphanedList kvs b jEmptyObj := by
  induction kvs with
  | nil => rw [findOrphanedList, findOrphanedList]
  | cons p rest ih =>
    obtain ⟨k, v⟩ := p
    rw [findOrphanedList, findOrphanedList, processEntry_non_dict_local hl, ih]

theorem findOrphaned_dictNorm_base (s b l : Json) :
    findOrphaned s (dictNorm b) l = findOrphaned s b l := by
  by_cases hb : isDictJ b = true
  · rw [dictNorm, if_pos hb]
  · have hb' : isDictJ b = false := by rwa [Bool.not_eq_true] at hb
    rw [dictNorm, if_neg hb]
    cases s with
    | obj kvs =>
      rw [findOrphaned, findOrphaned]
      exact (findOrphanedList_non_dict_base hb' kvs l).symm
    | null => simp [findOrphaned]
    | bool x => simp [findOrphaned]
    | num x => simp [findOrphaned]
    | str x => simp [findOrphaned]
    | arr xs => simp [findOrphaned]

theorem findOrphaned_dictNorm_local (s b l : Json) :
    findOrphaned s b (dictNorm l) = findOrphaned s b l := by
  by_cases hl : isDictJ l = true
  · rw [dictNorm, if_pos hl]
  · have hl' : isDictJ l = false := by rwa [Bool.not_eq_true] at hl
    rw [dictNorm, if_neg hl]
    cases s with
    | obj kvs =>
      rw [findOrphaned, findOrphaned]
      exact (findOrphanedList_non_dict_local hl' kvs b).symm
    | null => simp [findOrphaned]
    | bool x => simp [findOrphaned]
    | num x => simp [findOrphaned]
    | str x => simp [findOrphaned]
    | arr xs => simp [findOrphaned]

theorem findOrphaned_dictNorm (s b l : Json) :
    findOrphaned s (dictNorm b) (dictNorm l) = findOrphaned s b l := by
  rw [findOrphaned_dictNorm_base, findOrphaned_dictNorm_local]

/-! ## Lemmas: the explained branches of the loop body -/

theorem explained_cond {b l : Json} {k : String}
    (hcond : (jHasKey b k || jHasKey l k) = true) :
    (!jHasKey b k && !jHasKey l k) = false := by
  rw [← Bool.not_or, hcond]
  rfl

theorem processEntry_obj_explained {k : String} {sub : List (String × Json)} {b l : Json}
    (hcond : (jHasKey b k || jHasKey l k) = true) :
    processEntry k (Json.obj sub) b l =
      match findOrphaned (Json.obj sub) (jGetD b k jEmptyObj) (jGetD l k jEmptyObj) with
      | some nested => some (if nested.isEmpty then [] else [(k, Json.obj nested)])
      | none => none := by
  rw [processEntry.eq_def, explained_cond hcond]
  rfl

theorem processEntry_arr_explained {k : String} {xs : List Json} {b l : Json}
    (hcond : (jHasKey b k || jHasKey l k) = true) :
    processEntry k (Json.arr xs) b l =
      match filterNotIn xs
          (if jHasKey l k then jGetD l k jEmptyArr else jGetD b k jEmptyArr) with
      | some orph => some (if orph.isEmpty then [] else [(k, Json.arr orph)])
      | none => none := by
  rw [processEntry.eq_def, explained_cond hcond]
  rfl

theorem processEntry_scalar_explained {k : String} {v : Json} {b l : Json}
    (hcond : (jHasKey b k || jHasKey l k) = true)
    (hobj : isDictJ v = false) (harr : isListJ v = false) :
    processEntry k v b l = some [] := by
  rw [processEntry.eq_def, explained_cond hcond]
  cases v with
  | obj sub => simp [isDictJ] at hobj
  | arr xs => simp [isListJ] at harr
  | null => rfl
  | bool x => rfl
  | num x => rfl
  | str x => rfl

/-! ## Lemmas: result keys come from settings keys -/

theorem findOrphanedList_keys {kvs : List (String × Json)} {b l : Json}
    {res : List (String × Json)} (h : findOrphanedList kvs b l = some res) :
    ∀ p ∈ res, p.1 ∈ kvs.map Prod.fst := by
  induction kvs generalizing res with
  | nil =>
    rw [findOrphanedList] at h
    obtain rfl : [] = res := Option.some_injective _ h
    intro p hp
    exact absurd hp (List.not_mem_nil p)
  | cons q rest ih =>
    obtain ⟨k', v'⟩ := q
    obtain ⟨hd, tl, hpe, htl, rfl⟩ := findOrphanedList_cons_some h
    intro p hp
    rcases List.mem_append.mp hp with hmem | hmem
    · rw [List.map_cons, List.mem_cons]
      exact Or.inl (processEntry_keys hpe p hmem)
    · rw [List.map_cons, List.mem_cons]
      exact Or.inr (ih htl p hmem)

theorem dLookup_eq_none {t : List (String × Json)} {k : String}
    (h : ∀ p ∈ t, p.1 ≠ k) : dLookup t k = none := by
  induction t with
  | nil => rfl
  | cons p rest ih =>
    obtain ⟨k', v'⟩ := p
    rw [dLookup_cons, if_neg (h (k', v') (List.mem_cons_self _ _))]
    exact ih fun q hq => h q (List.mem_cons_of_mem _ hq)

/-! ## C2 -/

/-- C2: for every explained key whose `settings` value is a mapping,
`find_orphaned` recurses on that value against the corresponding sub-values
of base and local, each treated as the empty mapping when absent or not a
mapping; the key appears in the result exactly when the recursive diff is
non-empty, and then maps to that recursive diff. -/
theorem c2_nested_mapping_recursion
    (kvs : List (String × Json)) (b l : Json) (k : String)
    (sub res nested : List (String × Json))
    (hnd : (kvs.map Prod.fst).Nodup)
    (hv : dLookup kvs k = some (Json.obj sub))
    (hexp : (jHasKey b k || jHasKey l k) = true)
    (hres : findOrphaned (Json.obj kvs) b l = some res)
    (hnested : findOrphaned (Json.obj sub) (dictNorm (jGetD b k jEmptyObj))
        (dictNorm (jGetD l k jEmptyObj)) = some nested) :
    dLookup res k = if nested.isEmpty then none else some (Json.obj nested) := by
  rw [findOrphaned_dictNorm] at hnested
  rw [findOrphaned] at hres
  induction kvs generalizing res with
  | nil => simp [dLookup] at hv
  | cons p rest ih =>
    obtain ⟨k', v'⟩ := p
    obtain ⟨hd, tl, hpe, htl, rfl⟩ := findOrphanedList_cons_some hres
    rw [dLookup_cons] at hv
    rw [List.map_cons, List.nodup_cons] at hnd
    by_cases hk : k' = k
    · subst hk
      rw [if_pos rfl] at hv
      obtain rfl : v' = Json.obj sub := Option.some_injective _ hv
      rw [processEntry_obj_explained hexp, hnested] at hpe
      obtain rfl := Option.some_injective _ hpe
      by_cases he : nested.isEmpty
      · rw [if_pos he, List.nil_append, if_pos he]
        apply dLookup_eq_none
        intro q hq hqk
        exact hnd.1 (hqk ▸ findOrphanedList_keys htl q hq)
      · rw [if_neg he, List.cons_append, dLookup_cons, if_pos rfl, if_neg he]
    · rw [if_neg hk] at hv
      have hkeys := processEntry_keys hpe
      rw [dLookup_append_of_ne hd tl k (fun q hq => by rw [hkeys q hq]; exact hk)]
      exact ih tl hnd.2 hv htl

/-! ### Step-by-step evaluation lemmas for concrete runs of `find_orphaned`
(the equation lemmas of the well-founded definitions, packaged so concrete
instances chain without unfolding the recursion). -/

theorem findOrphanedList_nil_eq (b l : Json) : findOrphanedList [] b l = some [] := by
  rw [findOrphanedList]

theorem findOrphanedList_cons_eq {k : String} {v : Json} {rest : List (String × Json)}
    {b l : Json} {hd tl : List (String × Json)}
    (hpe : processEntry k v b l = some hd) (htl : findOrphanedList rest b l = some tl) :
    findOrphanedList ((k, v) :: rest) b l = some (hd ++ tl) := by
  rw [findOrphanedList, hpe, htl]

theorem findOrphaned_obj (kvs : List (String × Json)) (b l : Json) :
    findOrphaned (Json.obj kvs) b l = findOrphanedList kvs b l := by
  rw [findOrphaned]

theorem processEntry_obj_eval_ne {k : String} {sub : List (String × Json)} {b l : Json}
    {nested : List (String × Json)}
    (hcond : (jHasKey b k || jHasKey l k) = true)
    (hrec : findOrphaned (Json.obj sub) (jGetD b k jEmptyObj) (jGetD l k jEmptyObj) =
      some nested)
    (hne : nested.isEmpty = false) :
    processEntry k (Json.obj sub) b l = some [(k, Json.obj nested)] := by
  rw [processEntry_obj_explained hcond, hrec]
  show some (if nested.isEmpty then [] else [(k, Json.obj nested)]) = some [(k, Json.obj nested)]
  rw [hne]
  rfl

/-- Witness for C2 at the spec's example: for
`settings = {"editor": {"fontSize": 14, "tabSize": 2}}`,
`base = {"editor": {"fontSize": 14}}`, `local = {}` the orphan report is
`{"editor": {"tabSize": 2}}`, and the theorem applies to the key
`"editor"`. -/
theorem c2_nested_mapping_recursion_witness :
    findOrphaned
        (Json.obj [("editor", Json.obj [("fontSize", Json.num 14), ("tabSize", Json.num 2)])])
        (Json.obj [("editor", Json.obj [("fontSize", Json.num 14)])]) jEmptyObj =
      some [("editor", Json.obj [("tabSize", Json.num 2)])] ∧
    dLookup [("editor", Json.obj [("tabSize", Json.num 2)])] "editor" =
      if ([("tabSize", Json.num 2)] : List (String × Json)).isEmpty then none
      else some (Json.obj [("tabSize", Json.num 2)]) := by
  have pe1 : processEntry "fontSize" (Json.num 14) (Json.obj [("fontSize", Json.num 14)])
      jEmptyObj = some [] := processEntry_scalar_explained (by rfl) (by rfl) (by rfl)
  have pe2 : processEntry "tabSize" (Json.num 2) (Json.obj [("fontSize", Json.num 14)])
      jEmptyObj = some [("tabSize", Json.num 2)] := processEntry_orphan (by rfl) (by rfl)
  have inner : findOrphaned (Json.obj [("fontSize", Json.num 14), ("tabSize", Json.num 2)])
      (Json.obj [("fontSize", Json.num 14)]) jEmptyObj = some [("tabSize", Json.num 2)] := by
    rw [findOrphaned_obj,
      findOrphanedList_cons_eq pe1 (findOrphanedList_cons_eq pe2 (findOrphanedList_nil_eq _ _))]
    rfl
  have pe3 : processEntry "editor"
      (Json.obj [("fontSize", Json.num 14), ("tabSize", Json.num 2)])
      (Json.obj [("editor", Json.obj [("fontSize", Json.num 14)])]) jEmptyObj =
      some [("editor", Json.obj [("tabSize", Json.num 2)])] :=
    processEntry_obj_eval_ne (by rfl) inner (by rfl)
  have hres : findOrphaned
      (Json.obj [("editor", Json.obj [("fontSize", Json.num 14), ("tabSize", Json.num 2)])])
      (Json.obj [("editor", Json.obj [("fontSize", Json.num 14)])]) jEmptyObj =
      some [("editor", Json.obj [("tabSize", Json.num 2)])] := by
    rw [findOrphaned_obj, findOrphanedList_cons_eq pe3 (findOrphanedList_nil_eq _ _)]
    rfl
  exact ⟨hres,
    c2_nested_mapping_recursion
      [("editor", Json.obj [("fontSize", Json.num 14), ("tabSize", Json.num 2)])]
      (Json.obj [("editor", Json.obj [("fontSize", Json.num 14)])]) jEmptyObj "editor"
      [("fontSize", Json.num 14), ("tabSize", Json.num 2)]
      [("editor", Json.obj [("tabSize", Json.num 2)])]
      [("tabSize", Json.num 2)]
      (by simp) rfl rfl hres inner⟩

/-! ## C3 -/

theorem filterNotIn_arr (xs ys : List Json) :
    filterNotIn xs (Json.arr ys) =
      some (xs.filter (fun e => !(ys.any (fun y => pyEq e y)))) := by
  induction xs with
  | nil => rfl
  | cons e es ih =>
    cases hb : ys.any (fun y => pyEq e y) with
    | false => simp [filterNotIn, pyIn, ih, hb, List.filter_cons]
    | true => simp [filterNotIn, pyIn, ih, hb, List.filter_cons]

/-- C3: for every explained key whose `settings` value is an ordered
sequence, the expected sequence is local's value at that key when the key is
present in local, otherwise base's value; when that expected value is a
sequence, the key appears in the result exactly when some element of the
`settings` sequence equals no element of the expected sequence, and then
maps to the list of those elements in their original order. -/
theorem c3_array_semantics
    (kvs : List (String × Json)) (b l : Json) (k : String)
    (xs ys : List Json) (res : List (String × Json))
    (hnd : (kvs.map Prod.fst).Nodup)
    (hv : dLookup kvs k = some (Json.arr xs))
    (hexp : (jHasKey b k || jHasKey l k) = true)
    (hexpected : (if jHasKey l k then jGetD l k jEmptyArr else jGetD b k jEmptyArr) =
      Json.arr ys)
    (hres : findOrphaned (Json.obj kvs) b l = some res) :
    dLookup res k =
      if (xs.filter (fun e => !(ys.any (fun y => pyEq e y)))).isEmpty then none
      else some (Json.arr (xs.filter (fun e => !(ys.any (fun y => pyEq e y))))) := by
  rw [findOrphaned] at hres
  induction kvs generalizing res with
  | nil => simp [dLookup] at hv
  | cons p rest ih =>
    obtain ⟨k', v'⟩ := p
    obtain ⟨hd, tl, hpe, htl, rfl⟩ := findOrphanedList_cons_some hres
    rw [dLookup_cons] at hv
    rw [List.map_cons, List.nodup_cons] at hnd
    by_cases hk : k' = k
    · subst hk
      rw [if_pos rfl] at hv
      obtain rfl : v' = Json.arr xs := Option.some_injective _ hv
      rw [processEntry_arr_explained hexp, hexpected, filterNotIn_arr] at hpe
      obtain rfl := Option.some_injective _ hpe
      by_cases he : (xs.filter (fun e => !(ys.any (fun y => pyEq e y)))).isEmpty
      · rw [if_pos he, List.nil_append, if_pos he]
        apply dLookup_eq_none
        intro q hq hqk
        exact hnd.1 (hqk ▸ findOrphanedList_keys htl q hq)
      · rw [if_neg he, List.cons_append, dLookup_cons, if_pos rfl, if_neg he]
    · rw [if_neg hk] at hv
      have hkeys := processEntry_keys hpe
      rw [dLookup_append_of_ne hd tl k (fun q hq => by rw [hkeys q hq]; exact hk)]
      exact ih tl hnd.2 hv htl

/-- Witness for C3 at the spec's example: for
`settings = {"exclude": ["a","b","c"]}`, `local = {"exclude": ["a","b"]}`,
`base = {"exclude": ["a","b","c","d"]}`, the key is present in local, so
local governs, and the orphan report is `{"exclude": ["c"]}`. -/
theorem pyEq_str_eval (a b : String) : pyEq (Json.str a) (Json.str b) = (a == b) := by
  rw [pyEq]

theorem processEntry_arr_eval_ne {k : String} {xs ys orph : List Json} {b l : Json}
    (hcond : (jHasKey b k || jHasKey l k) = true)
    (hexp : (if jHasKey l k then jGetD l k jEmptyArr else jGetD b k jEmptyArr) = Json.arr ys)
    (hfil : xs.filter (fun e => !(ys.any (fun y => pyEq e y))) = orph)
    (hne : orph.isEmpty = false) :
    processEntry k (Json.arr xs) b l = some [(k, Json.arr orph)] := by
  rw [processEntry_arr_explained hcond, hexp, filterNotIn_arr, hfil]
  show some (if orph.isEmpty then [] else [(k, Json.arr orph)]) = some [(k, Json.arr orph)]
  rw [hne]
  rfl

theorem c3_array_semantics_witness :
    findOrphaned (Json.obj [("exclude", Json.arr [Json.str "a", Json.str "b", Json.str "c"])])
        (Json.obj [("exclude", Json.arr [Json.str "a", Json.str "b", Json.str "c", Json.str "d"])])
        (Json.obj [("exclude", Json.arr [Json.str "a", Json.str "b"])]) =
      some [("exclude", Json.arr [Json.str "c"])] ∧
    dLookup [("exclude", Json.arr [Json.str "c"])] "exclude" =
      some (Json.arr [Json.str "c"]) := by
  have hfil : [Json.str "a", Json.str "b", Json.str "c"].filter
      (fun e => !([Json.str "a", Json.str "b"].any (fun y => pyEq e y))) =
      [Json.str "c"] := by
    simp [List.filter_cons, pyEq_str_eval]
  have pe : processEntry "exclude" (Json.arr [Json.str "a", Json.str "b", Json.str "c"])
      (Json.obj [("exclude", Json.arr [Json.str "a", Json.str "b", Json.str "c", Json.str "d"])])
      (Json.obj [("exclude", Json.arr [Json.str "a", Json.str "b"])]) =
      some [("exclude", Json.arr [Json.str "c"])] :=
    processEntry_arr_eval_ne (by rfl) (by rfl) hfil (by rfl)
  have hres : findOrphaned
      (Json.obj [("exclude", Json.arr [Json.str "a", Json.str "b", Json.str "c"])])
      (Json.obj [("exclude", Json.arr [Json.str "a", Json.str "b", Json.str "c", Json.str "d"])])
      (Json.obj [("exclude", Json.arr [Json.str "a", Json.str "b"])]) =
      some [("exclude", Json.arr [Json.str "c"])] := by
    rw [findOrphaned_obj, findOrphanedList_cons_eq pe (findOrphanedList_nil_eq _ _)]
    rfl
  refine ⟨hres, ?_⟩
  have h := c3_array_semantics
    [("exclude", Json.arr [Json.str "a", Json.str "b", Json.str "c"])]
    (Json.obj [("exclude", Json.arr [Json.str "a", Json.str "b", Json.str "c", Json.str "d"])])
    (Json.obj [("exclude", Json.arr [Json.str "a", Json.str "b"])]) "exclude"
    [Json.str "a", Json.str "b", Json.str "c"] [Json.str "a", Json.str "b"]
    [("exclude", Json.arr [Json.str "c"])]
    (by simp) rfl rfl rfl hres
  rw [hfil] at h
  exact h

/-! ## C9: self-diff is empty -/

/-- The keys of an association list are pairwise distinct (as for any
Python dict). -/
def keysNodup : List (String × Json) → Bool
  | [] => true
  | (k, _) :: rest => !(rest.any (fun p => p.1 == k)) && keysNodup rest

mutual

/-- A well-formed document: every mapping in it has pairwise distinct keys.
Every document built by the JSON parser is well formed. -/
def wfJ : Json → Bool
  | .obj kvs => keysNodup kvs && wfEntries kvs
  | .arr xs => wfElems xs
  | _ => true

/-- All entry values are well formed. -/
def wfEntries : List (String × Json) → Bool
  | (_, v) :: more => wfJ v && wfEntries more
  | [] => true

/-- All elements are well formed. -/
def wfElems : List Json → Bool
  | x :: more => wfJ x && wfElems more
  | [] => true

end

theorem wfEntries_mem {kvs : List (String × Json)} {k : String} {v : Json}
    (h : wfEntries kvs = true) (hmem : (k, v) ∈ kvs) : wfJ v = true := by
  induction kvs with
  | nil => exact absurd hmem (List.not_mem_nil _)
  | cons p rest ih =>
    obtain ⟨k', v'⟩ := p
    rw [wfEntries, Bool.and_eq_true] at h
    rcases List.mem_cons.mp hmem with heq | hmem'
    · obtain ⟨rfl, rfl⟩ := Prod.mk.injEq .. ▸ heq
      exact h.1
    · exact ih h.2 hmem'

theorem dLookup_of_mem_nodup {kvs : List (String × Json)} {k : String} {v : Json}
    (hnd : keysNodup kvs = true) (hmem : (k, v) ∈ kvs) : dLookup kvs k = some v := by
  induction kvs with
  | nil => exact absurd hmem (List.not_mem_nil _)
  | cons p rest ih =>
    obtain ⟨k', v'⟩ := p
    rw [keysNodup, Bool.and_eq_true] at hnd
    rcases List.mem_cons.mp hmem with heq | hmem'
    · obtain ⟨rfl, rfl⟩ := Prod.mk.injEq .. ▸ heq
      rw [dLookup_cons, if_pos rfl]
    · rw [dLookup_cons]
      by_cases hk : k' = k
      · subst hk
        exfalso
        have : rest.any (fun p => p.1 == k') = true :=
          List.any_eq_true.mpr ⟨(k', v), hmem', by simp⟩
        rw [this] at hnd
        exact absurd hnd.1 (by simp)
      · rw [if_neg hk]
        exact ih hnd.2 hmem'

theorem wfElems_mem {xs : List Json} {e : Json}
    (h : wfElems xs = true) (hmem : e ∈ xs) : wfJ e = true := by
  induction xs with
  | nil => exact absurd hmem (List.not_mem_nil _)
  | cons x more ih =>
    rw [wfElems, Bool.and_eq_true] at h
    rcases List.mem_cons.mp hmem with heq | hmem'
    · exact heq ▸ h.1
    · exact ih h.2 hmem'

theorem sizeOf_val_lt {kvs : List (String × Json)} {k : String} {v : Json}
    (hmem : (k, v) ∈ kvs) : sizeOf v < sizeOf (Json.obj kvs) := by
  have h1 : sizeOf (k, v) < sizeOf kvs := List.sizeOf_lt_of_mem hmem
  have h2 : sizeOf (k, v) = 1 + sizeOf k + sizeOf v := rfl
  have h3 : sizeOf (Json.obj kvs) = 1 + sizeOf kvs := by simp
  omega

theorem pyEqValAt_of_mem {kvs : List (String × Json)} {k : String} {v : Json}
    (hnd : keysNodup kvs = true) (hmem : (k, v) ∈ kvs) (hv : pyEq v v = true) :
    pyEqValAt k v kvs = true := by
  induction kvs with
  | nil => exact absurd hmem (List.not_mem_nil _)
  | cons p rest ih =>
    obtain ⟨k2, w⟩ := p
    rw [keysNodup, Bool.and_eq_true] at hnd
    rw [pyEqValAt]
    rcases List.mem_cons.mp hmem with heq | hmem'
    · obtain ⟨rfl, rfl⟩ := Prod.mk.injEq .. ▸ heq
      simp [hv]
    · by_cases hk : k2 = k
      · exfalso
        subst hk
        have : rest.any (fun p => p.1 == k2) = true :=
          List.any_eq_true.mpr ⟨(k2, v), hmem', by simp⟩
        rw [this] at hnd
        exact absurd hnd.1 (by simp)
      · have hb : (k2 == k) = false := by simp [hk]
        rw [hb]
        simp only [Bool.false_eq_true, if_false]
        exact ih hnd.2 hmem'

/-- Python `x == x` holds on every well-formed document (no `NaN` exists in
the model, and each mapping key occurs once, so the looked-up value is the
entry's own). -/
theorem pyEqRefl_aux : ∀ (n : Nat) (j : Json), sizeOf j ≤ n → wfJ j = true →
    pyEq j j = true := by
  intro n
  induction n with
  | zero =>
    intro j hsz _
    exfalso
    have : 0 < sizeOf j := by cases j <;> simp
    omega
  | succ n ih =>
    intro j hsz hwf
    cases j with
    | null => rw [pyEq]
    | bool b => rw [pyEq]; simp
    | num m => rw [pyEq]; simp
    | str s => rw [pyEq]; simp
    | arr xs =>
      rw [pyEq]
      rw [wfJ] at hwf
      have main : ∀ sub : List Json, (∀ e ∈ sub, e ∈ xs) → pyEqList sub sub = true := by
        intro sub
        induction sub with
        | nil => intro _; rw [pyEqList]
        | cons e more ih2 =>
          intro hss
          rw [pyEqList, Bool.and_eq_true]
          have hmem : e ∈ xs := hss e (List.mem_cons_self _ _)
          refine ⟨?_, ih2 (fun q hq => hss q (List.mem_cons_of_mem _ hq))⟩
          apply ih
          · have h1 : sizeOf e < sizeOf xs := List.sizeOf_lt_of_mem hmem
            have h2 : sizeOf (Json.arr xs) = 1 + sizeOf xs := by simp
            omega
          · exact wfElems_mem hwf hmem
      exact main xs (fun e he => he)
    | obj kvs =>
      rw [wfJ, Bool.and_eq_true] at hwf
      rw [pyEq, Bool.and_eq_true]
      refine ⟨by simp, ?_⟩
      have main : ∀ sub : List (String × Json), (∀ p ∈ sub, p ∈ kvs) →
          pyEqEntriesIn sub kvs = true := by
        intro sub
        induction sub with
        | nil => intro _; rw [pyEqEntriesIn]
        | cons p more ih2 =>
          intro hss
          obtain ⟨k, v⟩ := p
          rw [pyEqEntriesIn, Bool.and_eq_true]
          have hmem : (k, v) ∈ kvs := hss _ (List.mem_cons_self _ _)
          refine ⟨?_, ih2 (fun q hq => hss q (List.mem_cons_of_mem _ hq))⟩
          apply pyEqValAt_of_mem hwf.1 hmem
          apply ih
          · have := sizeOf_val_lt hmem
            omega
          · exact wfEntries_mem hwf.2 hmem
      exact main kvs (fun p hp => hp)

theorem pyEq_refl_wf (j : Json) (h : wfJ j = true) : pyEq j j = true :=
  pyEqRefl_aux (sizeOf j) j le_rfl h

theorem selfDiff_aux : ∀ (n : Nat) (s : Json), sizeOf s ≤ n → wfJ s = true →
    findOrphaned s s jEmptyObj = some [] := by
  intro n
  induction n with
  | zero =>
    intro s hsz _
    exfalso
    have : 0 < sizeOf s := by cases s <;> simp
    omega
  | succ n ih =>
    intro s hsz hwf
    cases s with
    | obj kvs =>
      rw [wfJ, Bool.and_eq_true] at hwf
      rw [findOrphaned]
      have main : ∀ rest : List (String × Json), (∀ p ∈ rest, p ∈ kvs) →
          findOrphanedList rest (Json.obj kvs) jEmptyObj = some [] := by
        intro rest
        induction rest with
        | nil => intro _; rw [findOrphanedList]
        | cons p rest2 ih2 =>
          intro hsub
          obtain ⟨k, v⟩ := p
          have hmem : (k, v) ∈ kvs := hsub _ (List.mem_cons_self _ _)
          have hlk : dLookup kvs k = some v := dLookup_of_mem_nodup hwf.1 hmem
          have hin : jHasKey (Json.obj kvs) k = true := by
            rw [jHasKey]
            exact List.any_eq_true.mpr ⟨(k, v), hmem, by simp⟩
          have hcond : (jHasKey (Json.obj kvs) k || jHasKey jEmptyObj k) = true := by
            rw [hin, Bool.true_or]
          have hpe : processEntry k v (Json.obj kvs) jEmptyObj = some [] := by
            cases v with
            | obj sub =>
              rw [processEntry_obj_explained hcond]
              have hget : jGetD (Json.obj kvs) k jEmptyObj = Json.obj sub := by
                show (dLookup kvs k).getD jEmptyObj = Json.obj sub
                rw [hlk]
                rfl
              rw [hget, show jGetD jEmptyObj k jEmptyObj = jEmptyObj from rfl]
              have hrec : findOrphaned (Json.obj sub) (Json.obj sub) jEmptyObj = some [] := by
                apply ih
                · have := sizeOf_val_lt hmem
                  omega
                · exact wfEntries_mem hwf.2 hmem
              rw [hrec]
              rfl
            | arr xs =>
              rw [processEntry_arr_explained hcond]
              rw [show (if jHasKey jEmptyObj k then jGetD jEmptyObj k jEmptyArr
                  else jGetD (Json.obj kvs) k jEmptyArr) = jGetD (Json.obj kvs) k jEmptyArr
                from rfl]
              have hget : jGetD (Json.obj kvs) k jEmptyArr = Json.arr xs := by
                show (dLookup kvs k).getD jEmptyArr = Json.arr xs
                rw [hlk]
                rfl
              rw [hget, filterNotIn_arr]
              have hwfxs : wfElems xs = true := by
                have h1 : wfJ (Json.arr xs) = true := wfEntries_mem hwf.2 hmem
                rwa [wfJ] at h1
              have hfil : xs.filter (fun e => !(xs.any (fun y => pyEq e y))) = [] := by
                rw [List.filter_eq_nil_iff]
                intro a ha
                simp only [Bool.not_eq_true', Bool.not_eq_false]
                exact List.any_eq_true.mpr ⟨a, ha, pyEq_refl_wf a (wfElems_mem hwfxs ha)⟩
              rw [hfil]
              rfl
            | null => exact processEntry_scalar_explained hcond rfl rfl
            | bool x => exact processEntry_scalar_explained hcond rfl rfl
            | num x => exact processEntry_scalar_explained hcond rfl rfl
            | str x => exact processEntry_scalar_explained hcond rfl rfl
          rw [findOrphanedList, hpe, ih2 (fun q hq => hsub q (List.mem_cons_of_mem _ hq))]
          rfl
      exact main kvs (fun p hp => hp)
    | null => simp [findOrphaned]
    | bool x => simp [findOrphaned]
    | num x => simp [findOrphaned]
    | str x => simp [findOrphaned]
    | arr xs => simp [findOrphaned]

/-- C9: self-diff is empty: for every well-formed document `s` (mappings
have distinct keys, as Python dicts do), `find_orphaned(s, s, {})` returns
the empty mapping — a settings document is fully explained by a base
identical to itself. -/
theorem c9_self_diff_empty (s : Json) (h : wfJ s = true) :
    findOrphaned s s jEmptyObj = some [] :=
  selfDiff_aux (sizeOf s) s le_rfl h

/-- Witness for C9 at a nested document mixing mappings, sequences and
scalars. -/
theorem c9_self_diff_empty_witness :
    wfJ (Json.obj [("a", Json.arr [Json.num 1, Json.str "x"]),
        ("b", Json.obj [("c", Json.null), ("d", Json.bool true)])]) = true ∧
    findOrphaned
        (Json.obj [("a", Json.arr [Json.num 1, Json.str "x"]),
          ("b", Json.obj [("c", Json.null), ("d", Json.bool true)])])
        (Json.obj [("a", Json.arr [Json.num 1, Json.str "x"]),
          ("b", Json.obj [("c", Json.null), ("d", Json.bool true)])])
        jEmptyObj = some [] :=
  ⟨by simp [wfJ, wfEntries, wfElems, keysNodup],
   c9_self_diff_empty _ (by simp [wfJ, wfEntries, wfElems, keysNodup])⟩

/-! ## C5 -/

/-- C5: `parse_jsonc` returns the empty mapping when the file does not exist
(without error); otherwise it removes every `//` line comment to end of line
(regardless of string-literal context), removes each comma immediately
preceding (up to whitespace) a closing `}` or `]`, and parses the remaining
text as strict JSON; in particular `{ "a": 1, // comment\n }` parses to
`{"a": 1}`. -/
theorem c5_parse_jsonc_behaviour :
    parse_jsonc none = some jEmptyObj ∧
    (∀ text : String,
      parse_jsonc (some text) = jsonLoads (stripTrailingCommas (stripComments text.data))) ∧
    parse_jsonc (some "\x7b \"a\": 1, // comment\n \x7d") = some (Json.obj [("a", Json.num 1)]) :=
  ⟨rfl, fun _ => rfl, rfl⟩

/-! ## C6 -/

/-- C6: if `settings.json` does not exist, the process writes a diagnostic
message to standard error, exits with status 1, and prints no JSON (indeed,
nothing at all) to standard output. -/
theorem c6_missing_settings_json (scriptDir : String) (baseFile localFile : Option String) :
    (mainRun scriptDir none baseFile localFile).exitCode = 1 ∧
    (mainRun scriptDir none baseFile localFile).stdout = [] ∧
    (mainRun scriptDir none baseFile localFile).stderr = [errMsg scriptDir] :=
  ⟨rfl, rfl, rfl⟩

/-! ## C7 -/

/-- The claim of C7 as stated is false: a run on which all three inputs
parse can still exit with status 1 and print nothing to standard output,
because `find_orphaned` raises a `TypeError` when an explained key holds a
sequence whose expected value is a scalar (here `1 in 5`). -/
theorem c7_counterexample :
    (parse_jsonc (some "\x7b\"k\": [1]\x7d")).isSome = true ∧
    (parse_jsonc (some "\x7b\"k\": 5\x7d")).isSome = true ∧
    (parse_jsonc none).isSome = true ∧
    mainRun "" (some "\x7b\"k\": [1]\x7d") (some "\x7b\"k\": 5\x7d") none = ⟨1, [], [tracebackMsg]⟩ := by
  refine ⟨rfl, rfl, rfl, ?_⟩
  have hfo : findOrphaned (Json.obj [("k", Json.arr [Json.num 1])])
      (Json.obj [("k", Json.num 5)]) jEmptyObj = none := by
    simp [findOrphaned, findOrphanedList, processEntry, jHasKey, jGetD, dLookup,
      filterNotIn, pyIn, jEmptyObj, jEmptyArr, List.find?]
  calc mainRun "" (some "\x7b\"k\": [1]\x7d") (some "\x7b\"k\": 5\x7d") none
      = (match findOrphaned (Json.obj [("k", Json.arr [Json.num 1])])
            (Json.obj [("k", Json.num 5)]) jEmptyObj with
         | none => (⟨1, [], [tracebackMsg]⟩ : ProcResult)
         | some orphaned =>
           if orphaned.isEmpty then ⟨0, ["No orphaned settings found."], []⟩
           else ⟨0, [jsonDumps (Json.obj orphaned)], []⟩) := rfl
    _ = ⟨1, [], [tracebackMsg]⟩ := by rw [hfo]

/-- C7 (amended: the claim as stated fails when the orphan computation
itself raises, see the counterexample; it holds on runs where the orphan
computation also completes): on a run where all inputs parse and the orphan
computation completes, the script prints the orphan mapping as 2-space
indented JSON when it is non-empty, prints exactly the line
`No orphaned settings found.` when it is empty, and exits with status 0. -/
theorem c7_output_and_exit_code
    (scriptDir settingsText : String) (baseFile localFile : Option String)
    (base localSettings settings : Json) (orphaned : List (String × Json))
    (hb : parse_jsonc baseFile = some base)
    (hl : parse_jsonc localFile = some localSettings)
    (hs : parse_jsonc (some settingsText) = some settings)
    (ho : findOrphaned settings base localSettings = some orphaned) :
    mainRun scriptDir (some settingsText) baseFile localFile =
      if orphaned.isEmpty then ⟨0, ["No orphaned settings found."], []⟩
      else ⟨0, [jsonDumps (Json.obj orphaned)], []⟩ := by
  simp only [mainRun, hb, hl, hs, ho]

/-- Witness for C7 at the spec's example: for `settings = {"a": 1}`,
`base = {"a": 1}` and no local file, the run prints exactly
`No orphaned settings found.` and exits 0. -/
theorem c7_output_and_exit_code_witness :
    mainRun "" (some "\x7b\"a\": 1\x7d") (some "\x7b\"a\": 1\x7d") none =
      ⟨0, ["No orphaned settings found."], []⟩ := by
  have h := c7_output_and_exit_code "" "\x7b\"a\": 1\x7d" (some "\x7b\"a\": 1\x7d") none
    (Json.obj [("a", Json.num 1)]) jEmptyObj (Json.obj [("a", Json.num 1)]) []
    rfl rfl rfl
    (by simp [findOrphaned, findOrphanedList, processEntry, jHasKey, jGetD, dLookup,
      jEmptyObj, List.find?])
  simpa using h

/-! ## C4 and C8: the Escaper -/

theorem compilePat_escaped {c : Char} (h : isWordChar c = false) (r : List Char) :
    compilePat ('\\' :: c :: r) = withQuant (RAtom.lit c) r := by
  rw [compilePat]
  simp [h]

theorem compilePat_raw {c : Char} (hmeta : c ∉ regexMeta) (hbs : c ≠ '\\') (hdot : c ≠ '.')
    (r : List Char) : compilePat (c :: r) = withQuant (RAtom.lit c) r := by
  rw [compilePat]
  · simp [hbs, hdot, hmeta]
  · exact fun c1 r1 hc _ => hbs hc

theorem withQuant_nil (a : RAtom) : withQuant a [] = some [(a, RQuant.one)] := by
  rw [withQuant]

theorem withQuant_noquant (a : RAtom) {d : Char} (t : List Char)
    (h1 : d ≠ '*') (h2 : d ≠ '+') (h3 : d ≠ '?') :
    withQuant a (d :: t) = (compilePat (d :: t)).map (fun ps => (a, RQuant.one) :: ps) := by
  rw [withQuant]
  simp [h1, h2, h3]

/-- The per-character output of the Escaper pipeline: each character of the
rstripped line becomes either `\c` (when `re.escape` escapes it or it is a
slash) or itself. -/
def escChunk (c : Char) : List Char :=
  if c ∈ reSpecials ∨ c = '/' then ['\\', c] else [c]

theorem pyReplaceSlash_reEscapeChar (c : Char) :
    pyReplaceSlash (reEscapeChar c) = escChunk c := by
  by_cases hc : c ∈ reSpecials
  · have h1 : c ≠ '/' := fun he => by rw [he] at hc; exact absurd hc (by decide)
    rw [reEscapeChar, if_pos hc, escChunk, if_pos (Or.inl hc)]
    simp [pyReplaceSlash, slashRepChar, h1]
  · rw [reEscapeChar, if_neg hc]
    by_cases h2 : c = '/'
    · subst h2
      rw [escChunk, if_pos (Or.inr rfl)]
      rfl
    · rw [escChunk, if_neg (by rintro (h | h) <;> [exact hc h; exact h2 h])]
      simp [pyReplaceSlash, slashRepChar, h2]

theorem escOut_cons (c : Char) (L : List Char) :
    pyReplaceSlash (reEscape (c :: L)) = escChunk c ++ pyReplaceSlash (reEscape L) := by
  rw [reEscape, List.flatMap_cons, pyReplaceSlash, List.flatMap_append,
    ← pyReplaceSlash, ← pyReplaceSlash, pyReplaceSlash_reEscapeChar, ← reEscape]

theorem escChunk_wordfree {c : Char} (h : c ∈ reSpecials ∨ c = '/') :
    isWordChar c = false := by
  rcases h with h | h
  · fin_cases h <;> decide
  · subst h; decide

/-- The first character of any Escaper output is never a quantifier. -/
theorem escOut_head_no_quant (L : List Char) {d : Char} {t : List Char}
    (h : pyReplaceSlash (reEscape L) = d :: t) : d ≠ '*' ∧ d ≠ '+' ∧ d ≠ '?' := by
  cases L with
  | nil => exact absurd h (by simp [reEscape, pyReplaceSlash])
  | cons c L' =>
    rw [escOut_cons] at h
    by_cases hc : c ∈ reSpecials ∨ c = '/'
    · rw [escChunk, if_pos hc] at h
      obtain rfl : '\\' = d := (List.cons.injEq .. ▸ h).1
      exact ⟨by decide, by decide, by decide⟩
    · rw [escChunk, if_neg hc] at h
      obtain rfl : c = d := (List.cons.injEq .. ▸ h).1
      push_neg at hc
      refine ⟨fun he => ?_, fun he => ?_, fun he => ?_⟩ <;>
        (subst he; exact hc.1 (by decide))

/-- The literal single-character pieces matching exactly the text `L`. -/
def litPieces (L : List Char) : List (RAtom × RQuant) :=
  L.map (fun c => (RAtom.lit c, RQuant.one))

/-- The Escaper's output compiles, and compiles to the sequence of literal
atoms for the original characters: every metacharacter was escaped. -/
theorem compile_escaper_output : ∀ L : List Char,
    compilePat (pyReplaceSlash (reEscape L)) = some (litPieces L) := by
  intro L
  induction L with
  | nil => rw [show pyReplaceSlash (reEscape []) = [] from rfl, compilePat, litPieces]; rfl
  | cons c L' ih =>
    rw [escOut_cons]
    have hcont : withQuant (RAtom.lit c) (pyReplaceSlash (reEscape L')) =
        some (litPieces (c :: L')) := by
      cases hout : pyReplaceSlash (reEscape L') with
      | nil =>
        rw [hout] at ih
        rw [withQuant_nil]
        rw [compilePat] at ih
        have hnil : litPieces L' = [] := (Option.some_injective _ ih).symm
        rw [show litPieces (c :: L') = (RAtom.lit c, RQuant.one) :: litPieces L' from rfl, hnil]
      | cons d t =>
        obtain ⟨h1, h2, h3⟩ := escOut_head_no_quant L' hout
        rw [withQuant_noquant _ t h1 h2 h3, ← hout, ih]
        rfl
    by_cases hc : c ∈ reSpecials ∨ c = '/'
    · rw [escChunk, if_pos hc, List.cons_append, List.cons_append, List.nil_append,
        compilePat_escaped (escChunk_wordfree hc)]
      exact hcont
    · rw [escChunk, if_neg hc]
      push_neg at hc
      have hmeta : c ∉ regexMeta := by
        intro hm
        exact absurd (by fin_cases hm <;> decide : c ∈ reSpecials) hc.1
      have hbs : c ≠ '\\' := fun he => hc.1 (he ▸ by decide)
      have hdot : c ≠ '.' := fun he => hc.1 (he ▸ by decide)
      rw [List.cons_append, List.nil_append, compilePat_raw hmeta hbs hdot]
      exact hcont

/-- A sequence of one-quantified literal atoms matches exactly the literal
text. -/
theorem matchP_lits : ∀ (L s : List Char), MatchP (litPieces L) s ↔ s = L := by
  intro L
  induction L with
  | nil =>
    intro s
    constructor
    · intro h
      cases h
      rfl
    · rintro rfl
      exact MatchP.nil
  | cons c L' ih =>
    intro s
    constructor
    · intro h
      cases h with
      | one ha hm =>
        rw [(ih _).mp hm]
        rw [show RAtom.lit c = RAtom.lit c from rfl] at ha
        exact congrArg (· :: L') ha.symm ▸ rfl
    · rintro rfl
      exact MatchP.one rfl ((ih L').mpr rfl)

/-- C4 (amended: the claim as stated — for every line with no trailing
newline — is false, because the Escaper strips all trailing whitespace, not
just newlines, see the counterexample; it holds for lines with no trailing
whitespace): for every input line `L` without trailing whitespace, the
Escaper's output, used as a regex pattern, matches exactly the literal text
`L` — not a superset or subset. -/
theorem c4_escaped_line_matches_exactly
    (L : List Char) (h : pyRstrip L = L) (s : List Char) :
    PatMatches (escLine L) s ↔ s = L := by
  have hc : compilePat (escLine L) = some (litPieces L) := by
    rw [escLine, h]
    exact compile_escaper_output L
  constructor
  · rintro ⟨ps, hps, hm⟩
    rw [hc] at hps
    obtain rfl : litPieces L = ps := Option.some_injective _ hps
    exact (matchP_lits L s).mp hm
  · intro hs
    rw [hs]
    exact ⟨litPieces L, hc, (matchP_lits L L).mpr rfl⟩

/-- C4 as stated is false: the line `"a "` has no trailing newline, but its
Escaper output is the pattern `a`, which matches the text `"a"` — not an
occurrence of the literal `"a "`. -/
theorem c4_counterexample :
    ¬ (∀ L : List Char, NoTrailingNewline L →
        ∀ s : List Char, PatMatches (escLine L) s ↔ s = L) := by
  intro h
  have hnt : NoTrailingNewline ['a', ' '] := by
    rw [NoTrailingNewline]
    simp
  have hm : PatMatches (escLine ['a', ' ']) ['a'] := by
    refine ⟨[(RAtom.lit 'a', RQuant.one)], ?_, MatchP.one rfl MatchP.nil⟩
    show compilePat ['a'] = _
    rw [compilePat_raw (by decide) (by decide) (by decide), withQuant_nil]
  have := (h ['a', ' '] hnt ['a']).mp hm
  exact absurd this (by decide)

/-- Witness for C4 at the spec's example line `a.b*c` (no trailing
whitespace): the escaped pattern is `a\.b\*c` and it matches the line
itself. -/
theorem c4_escaped_line_matches_exactly_witness :
    escLine "a.b*c".data = "a\\.b\\*c".data ∧
    pyRstrip "a.b*c".data = "a.b*c".data ∧
    (PatMatches (escLine "a.b*c".data) "a.b*c".data ↔ "a.b*c".data = "a.b*c".data) :=
  ⟨by decide, by decide,
   c4_escaped_line_matches_exactly "a.b*c".data (by decide) "a.b*c".data⟩

/-- C8: in the Escaper's output, every forward slash of the input line
appears replaced by `\/` on top of the standard `re.escape` escaping of the
other characters: the whole transform is the per-character map sending `/`
to `\/` and any other character to its `re.escape` image, applied to the
rstripped line — and rstripping never drops a slash, so the count of slashes
is preserved; in particular `a/b` becomes `a\/b`. -/
theorem c8_slash_replacement :
    (∀ l : List Char, escLine l =
      (pyRstrip l).flatMap (fun c => if c = '/' then ['\\', '/'] else reEscapeChar c)) ∧
    (∀ l : List Char, (pyRstrip l).count '/' = l.count '/') ∧
    escLine "a/b".data = "a\\/b".data := by
  refine ⟨fun l => ?_, fun l => ?_, by decide⟩
  · rw [escLine]
    generalize pyRstrip l = m
    induction m with
    | nil => rfl
    | cons c m' ih =>
      rw [escOut_cons, List.flatMap_cons, ih, escChunk]
      by_cases hc : c ∈ reSpecials ∨ c = '/'
      · rw [if_pos hc]
        rcases hc with hc | hc
        · have h1 : c ≠ '/' := fun he => by rw [he] at hc; exact absurd hc (by decide)
          rw [if_neg h1, reEscapeChar, if_pos hc]
        · subst hc
          rw [if_pos rfl]
      · push_neg at hc
        rw [if_neg (by rintro (h | h) <;> [exact hc.1 h; exact hc.2 h]), if_neg hc.2,
          reEscapeChar, if_neg hc.1]
  · rw [pyRstrip, List.count_reverse]
    conv_rhs => rw [← List.count_reverse, ← List.takeWhile_append_dropWhile
      (p := pyIsSpace) (l := l.reverse)]
    rw [List.count_append]
    have : (l.reverse.takeWhile pyIsSpace).count '/' = 0 := by
      rw [List.count_eq_zero]
      intro hmem
      have := List.mem_takeWhile_imp hmem
      exact absurd this (by decide)
    omega
